import Mathlib

/-!
Verification of the audio-fingerprinting backend (Reverse-Engineering-Shazam).

This development shallowly embeds the parts of the backend that the checked
properties are about:

* `src/backend/src/fingerprinting/generator.py` — fingerprint generation and
  the two landmark hash methods;
* `src/backend/src/fingerprinting/peaks.py` — spectral peak extraction;
* `src/backend/src/database/manager.py` — the per-shard store (`add_song`,
  `find_matches`, `get_database_stats`);
* `src/backend/main.py` — shard selection (`find_suitable_database`),
  chunked ingest (`process_audio_chunk`), and cross-shard merge
  (`identify_song`);
* `src/backend/api.py` — the `POST /identify` endpoint control flow.

Machine floats are modelled by exact rationals (ℚ); transcendental values that
the code obtains from floating-point `np.log` / `np.logspace` are abstracted as
parameters where the checked property does not depend on them, and modelled
over ℝ with `Real.log` where it does.  Exceptions are modelled with `Except`
and explicit failure oracles.
-/

namespace Shazam

/-- Python `int(x)` / numpy `astype(int)` on a rational value: truncation
toward zero. -/
def pyInt (x : ℚ) : ℤ := if 0 ≤ x then ⌊x⌋ else ⌈x⌉

/-- numpy `np.clip(x, lo, hi)` on rationals. -/
def clipQ (x lo hi : ℚ) : ℚ := min (max x lo) hi

/-- numpy `np.clip(n, lo, hi)` on integers. -/
def clipZ (n lo hi : ℤ) : ℤ := min (max n lo) hi

/-- First maximal element of a nonempty list under a rational key, as Python
`max(l, key=k)` computes it (the earliest element attaining the maximum). -/
def maxByFirst (key : α → ℚ) (a : α) (l : List α) : α :=
  l.foldl (fun best m => if key best < key m then m else best) a

/-- Stable ascending sort by a rational key, as Python `sorted(l, key=key)`:
elements with equal keys keep their original relative order. -/
def sortAscBy (key : α → ℚ) (l : List α) : List α :=
  l.insertionSort (fun a b => key a ≤ key b)

/-- Stable descending sort by a rational key, as Python
`sorted(l, key=key, reverse=True)` / `l.sort(key=key, reverse=True)`. -/
def sortDescBy (key : α → ℚ) (l : List α) : List α :=
  l.insertionSort (fun a b => key b ≤ key a)

/-- numpy `np.argsort(vals)` (stable, ascending): the indices
`0, …, vals.length - 1` sorted by value, ties by lower index first. -/
def argsortAsc (vals : List ℚ) : List ℕ :=
  (List.range vals.length).insertionSort
    (fun i j => vals.getD i 0 < vals.getD j 0 ∨
      (vals.getD i 0 = vals.getD j 0 ∧ i ≤ j))

/-- numpy `np.argsort(vals)[::-1]`: the reverse of the stable ascending
argsort (so ties come out in decreasing index order). -/
def argsortDesc (vals : List ℚ) : List ℕ := (argsortAsc vals).reverse

/-! ## Fingerprint generator (`src/backend/src/fingerprinting/generator.py`) -/

/-- A landmark fingerprint: a hash paired with the anchor time in seconds
(`Fingerprint` dataclass). -/
structure Fingerprint where
  hash : ℕ
  timeOffset : ℚ
deriving DecidableEq, Repr

/-- The `hash_method` configuration value (`"v1" | "v2" | "both"`). -/
inductive HashMethod where
  | v1 | v2 | both
deriving DecidableEq, Repr

/-- Configuration of `FingerprintGenerator` (the fields the algorithm reads;
`hash_bits`, `sample_rate` and `hop_length` are stored but never used by
`generate_fingerprint`). -/
structure FGConfig where
  fanValue : ℕ
  minTimeDelta : ℚ
  maxTimeDelta : ℚ
  freqBinCount : ℕ
  hashMethod : HashMethod
deriving Repr

/-- The generator configuration built by `create_fingerprint_generator` from
`config.py` defaults. -/
def defaultFGConfig (m : HashMethod) : FGConfig :=
  ⟨40, 0, 200, 32, m⟩

/-- `_freq_to_bin` for one frequency.  The code clips the frequency to
`[20, 20000]`, maps it through `np.log`, scales the position between
`log 20` and `log 20000` to `num_bins - 1`, truncates with `astype(int)` and
clips the result to `[0, num_bins - 1]`.  The floating-point logarithm is
abstracted as the parameter `logF`. -/
def freqToBin (logF : ℚ → ℚ) (numBins : ℕ) (f : ℚ) : ℕ :=
  let bounded := clipQ f 20 20000
  let logMin := logF 20
  let logMax := logF 20000
  let binValue := pyInt ((logF bounded - logMin) / (logMax - logMin) * ((numBins : ℚ) - 1))
  (clipZ binValue 0 ((numBins : ℤ) - 1)).toNat

/-- `_generate_hash_v1`: `(a & 0xFFF) << 22 | (t & 0xFFF) << 10 | (dt & 0x3FF)`.
Python `&` with a mask `2^k - 1` on an arbitrary-precision integer equals
`emod 2^k`. -/
def generateHashV1 (anchorFreqBin targetFreqBin timeDeltaBin : ℤ) : ℕ :=
  ((anchorFreqBin % 4096).toNat <<< 22) |||
    ((targetFreqBin % 4096).toNat <<< 10) |||
    (timeDeltaBin % 1024).toNat

/-- `_generate_hash_v2`: like v1 with the frequency-delta bin in the middle
field, then `|= 1 << 31`. -/
def generateHashV2 (anchorFreqBin freqDeltaBin timeDeltaBin : ℤ) : ℕ :=
  (((anchorFreqBin % 4096).toNat <<< 22) |||
    ((freqDeltaBin % 4096).toNat <<< 10) |||
    (timeDeltaBin % 1024).toNat) ||| (1 <<< 31)

/-- The fingerprints `generate_fingerprint` emits for one anchor/target pair:
a v1 hash if the method is `v1` or `both`, then a v2 hash if the method is
`v2` or `both`, each carrying the anchor time. -/
def emitPair (cfg : FGConfig) (anchorTime anchorFreq : ℚ) (anchorBin : ℕ)
    (targetTime targetFreq : ℚ) (targetBin : ℕ) : List Fingerprint :=
  let timeDelta := (targetTime - anchorTime) * 1000
  let timeDeltaBin : ℤ := min 1023 (pyInt (timeDelta / (cfg.maxTimeDelta / 1024)))
  (if cfg.hashMethod = .v1 ∨ cfg.hashMethod = .both then
      [⟨generateHashV1 anchorBin targetBin timeDeltaBin, anchorTime⟩]
    else []) ++
  (if cfg.hashMethod = .v2 ∨ cfg.hashMethod = .both then
      let freqDelta := |targetFreq - anchorFreq|
      let freqDeltaBin : ℤ := min 1023 (pyInt (freqDelta / 50))
      [⟨generateHashV2 anchorBin freqDeltaBin timeDeltaBin, anchorTime⟩]
    else [])

/-- Target selection for one anchor.  `targetIdx` is
`np.where((peak_times > min_time) & (peak_times < max_time))[0]` in ascending
order.  When there are more than `fan_value` candidates the code keeps the
`fan_value // 2` closest (stable Python `sorted` by time delta), and fills up
with `random.sample` from the remaining candidates; `sample` abstracts that
PRNG draw (`random.sample(remaining, k)` returns `k` distinct elements of
`remaining`).  `closestTargets` is the stable sort-and-take of the
`fan_value // 2` nearest candidates. -/
def closestTargets (cfg : FGConfig) (peakTimes : List ℚ) (anchorTime : ℚ)
    (targetIdx : List ℕ) : List ℕ :=
  (sortAscBy (fun i => peakTimes.getD i 0 - anchorTime) targetIdx).take (cfg.fanValue / 2)

/-- The candidates left after removing the closest ones
(`[idx for idx in target_indices if idx not in sorted_by_time]`). -/
def remainingTargets (cfg : FGConfig) (peakTimes : List ℚ) (anchorTime : ℚ)
    (targetIdx : List ℕ) : List ℕ :=
  targetIdx.filter (fun i => ¬ i ∈ closestTargets cfg peakTimes anchorTime targetIdx)

def selectTargets (cfg : FGConfig) (sample : List ℕ → ℕ → List ℕ)
    (peakTimes : List ℚ) (anchorTime : ℚ) (targetIdx : List ℕ) : List ℕ :=
  if cfg.fanValue < targetIdx.length then
    if (remainingTargets cfg peakTimes anchorTime targetIdx).isEmpty then targetIdx
    else closestTargets cfg peakTimes anchorTime targetIdx ++
      sample (remainingTargets cfg peakTimes anchorTime targetIdx)
        (min (remainingTargets cfg peakTimes anchorTime targetIdx).length
          (cfg.fanValue - (closestTargets cfg peakTimes anchorTime targetIdx).length))
  else targetIdx

/-- Candidate target indices for one anchor time: the peaks whose time lies
strictly inside `(anchor + min_time_delta/1000, anchor + max_time_delta/1000)`
(`np.where` over the `peak_times` array, ascending index order). -/
def anchorTargets (cfg : FGConfig) (peakTimes : List ℚ) (anchorTime : ℚ) : List ℕ :=
  (List.range peakTimes.length).filter
    (fun i => anchorTime + cfg.minTimeDelta / 1000 < peakTimes.getD i 0 ∧
      peakTimes.getD i 0 < anchorTime + cfg.maxTimeDelta / 1000)

/-- The loop body of `generate_fingerprint` for the anchor at index `a`:
anchors with no candidate target emit nothing, otherwise each selected target
contributes its hash/time pairs. -/
def anchorEmit (cfg : FGConfig) (sample : List ℕ → ℕ → List ℕ)
    (peakFreqs peakTimes : List ℚ) (freqBins : List ℕ) (a : ℕ) : List Fingerprint :=
  let anchorTime := peakTimes.getD a 0
  let anchorFreq := peakFreqs.getD a 0
  let anchorBin := freqBins.getD a 0
  let targetIdx := anchorTargets cfg peakTimes anchorTime
  if targetIdx.isEmpty then [] else
  (selectTargets cfg sample peakTimes anchorTime targetIdx).flatMap (fun t =>
    emitPair cfg anchorTime anchorFreq anchorBin
      (peakTimes.getD t 0) (peakFreqs.getD t 0) (freqBins.getD t 0))

/-- `generate_fingerprint(peaks, freqs, times)`.  Peaks are `(freq_idx,
time_idx)` pairs; `peak_freqs = freqs[peaks[:, 0]]`, `peak_times =
times[peaks[:, 1]]`. -/
def generateFingerprint (cfg : FGConfig) (logF : ℚ → ℚ)
    (sample : List ℕ → ℕ → List ℕ) (peaks : List (ℕ × ℕ))
    (freqs times : List ℚ) : List Fingerprint :=
  if peaks.isEmpty then [] else
  let peakFreqs := peaks.map (fun p => freqs.getD p.1 0)
  let peakTimes := peaks.map (fun p => times.getD p.2 0)
  let freqBins := peakFreqs.map (freqToBin logF cfg.freqBinCount)
  (List.range peaks.length).flatMap
    (anchorEmit cfg sample peakFreqs peakTimes freqBins)

/-! ### Hash range facts (claim C6) -/

lemma freqToBin_le (logF : ℚ → ℚ) (numBins : ℕ) (f : ℚ) :
    freqToBin logF numBins f ≤ ((numBins : ℤ) - 1).toNat := by
  unfold freqToBin clipZ
  exact Int.toNat_le_toNat (min_le_right _ _)

lemma generateHashV1_bound {a : ℕ} (ha : a ≤ 31) (t d : ℤ) :
    generateHashV1 a t d < 2 ^ 32 ∧ (generateHashV1 a t d).testBit 31 = false := by
  have hlt : generateHashV1 a t d < 2 ^ 27 := by
    unfold generateHashV1
    have h1 : ((a : ℤ) % 4096).toNat <<< 22 < 2 ^ 27 := by
      rw [Nat.shiftLeft_eq]
      have ha2 : ((a : ℤ) % 4096).toNat = a := by omega
      rw [ha2]
      calc a * 2 ^ 22 ≤ 31 * 2 ^ 22 := Nat.mul_le_mul_right _ ha
        _ < 2 ^ 27 := by norm_num
    have h2 : (t % 4096).toNat <<< 10 < 2 ^ 27 := by
      rw [Nat.shiftLeft_eq]
      have ht : (t % 4096).toNat ≤ 4095 := by omega
      calc (t % 4096).toNat * 2 ^ 10 ≤ 4095 * 2 ^ 10 := Nat.mul_le_mul_right _ ht
        _ < 2 ^ 27 := by norm_num
    have h3 : (d % 1024).toNat < 2 ^ 27 := by
      have hd : (d % 1024).toNat ≤ 1023 := by omega
      calc (d % 1024).toNat ≤ 1023 := hd
        _ < 2 ^ 27 := by norm_num
    exact Nat.or_lt_two_pow (Nat.or_lt_two_pow h1 h2) h3
  refine ⟨lt_trans hlt (by norm_num), ?_⟩
  exact Nat.testBit_lt_two_pow (lt_trans hlt (by norm_num))

lemma generateHashV2_bound {a : ℕ} (ha : a ≤ 31) (fd d : ℤ) :
    generateHashV2 a fd d < 2 ^ 32 ∧ (generateHashV2 a fd d).testBit 31 = true := by
  have hbase := generateHashV1_bound ha fd d
  have hshape : generateHashV2 a fd d = generateHashV1 a fd d ||| 1 <<< 31 := rfl
  have hpow : (1 : ℕ) <<< 31 = 2 ^ 31 := by rw [Nat.shiftLeft_eq, one_mul]
  constructor
  · rw [hshape]
    exact Nat.or_lt_two_pow hbase.1 (by rw [hpow]; norm_num)
  · rw [hshape, Nat.testBit_or, hbase.2, hpow, Nat.testBit_two_pow_self]
    rfl

lemma getD_prop {P : α → Prop} {l : List α} {d : α}
    (h : ∀ x ∈ l, P x) (hd : P d) (n : ℕ) : P (l.getD n d) := by
  induction l generalizing n with
  | nil => simpa using hd
  | cons x xs ih =>
    cases n with
    | zero => exact h x (List.mem_cons_self x xs)
    | succ m =>
      rw [List.getD_cons_succ]
      exact ih (fun y hy => h y (List.mem_cons_of_mem x hy)) m

lemma mem_emitPair_hash {cfg : FGConfig} {ta af tt tf : ℚ} {ab tb : ℕ}
    {fp : Fingerprint} (h : fp ∈ emitPair cfg ta af ab tt tf tb) :
    (cfg.hashMethod ≠ .v2 ∧ ∃ x y : ℤ, fp.hash = generateHashV1 ab x y) ∨
    (cfg.hashMethod ≠ .v1 ∧ ∃ x y : ℤ, fp.hash = generateHashV2 ab x y) := by
  unfold emitPair at h
  rcases hm : cfg.hashMethod with _ | _ | _ <;> rw [hm] at h <;> simp at h
  · exact Or.inl ⟨by decide, tb, _, by rw [h]⟩
  · exact Or.inr ⟨by decide, _, _, by rw [h]⟩
  · rcases h with h | h
    · exact Or.inl ⟨by decide, tb, _, by rw [h]⟩
    · exact Or.inr ⟨by decide, _, _, by rw [h]⟩

lemma mem_generateFingerprint_emitPair {cfg : FGConfig} {logF : ℚ → ℚ}
    {sample : List ℕ → ℕ → List ℕ} {peaks : List (ℕ × ℕ)}
    {freqs times : List ℚ} {fp : Fingerprint}
    (h : fp ∈ generateFingerprint cfg logF sample peaks freqs times) :
    ∃ (ta af tt tf : ℚ) (ab tb : ℕ),
      ab ≤ ((cfg.freqBinCount : ℤ) - 1).toNat ∧
      fp ∈ emitPair cfg ta af ab tt tf tb := by
  unfold generateFingerprint at h
  split at h
  · simp at h
  · set peakFreqs := peaks.map (fun p => freqs.getD p.1 0) with hpf
    set peakTimes := peaks.map (fun p => times.getD p.2 0) with hpt
    set freqBins := peakFreqs.map (freqToBin logF cfg.freqBinCount) with hfb
    rw [List.mem_flatMap] at h
    obtain ⟨a, -, ha⟩ := h
    simp only [anchorEmit] at ha
    split at ha
    · simp at ha
    · rw [List.mem_flatMap] at ha
      obtain ⟨t, -, ht⟩ := ha
      refine ⟨_, _, _, _, _, _, ?_, ht⟩
      have hall : ∀ x ∈ List.map (freqToBin logF cfg.freqBinCount) peakFreqs,
          x ≤ ((cfg.freqBinCount : ℤ) - 1).toNat := by
        intro x hx
        rw [List.mem_map] at hx
        obtain ⟨q, -, rfl⟩ := hx
        exact freqToBin_le logF cfg.freqBinCount q
      exact getD_prop hall (Nat.zero_le _) a

/-- C6: with the default `freq_bin_count` of 32, every hash the generator
emits fits in 32 bits; hashes produced with `hash_method = "v1"` have bit 31
clear and hashes produced with `hash_method = "v2"` have bit 31 set, so the
two hash spaces are disjoint. -/
theorem generator_hashes_32bit_and_bit31_disjoint
    (logF : ℚ → ℚ) (sample : List ℕ → ℕ → List ℕ) (peaks : List (ℕ × ℕ))
    (freqs times : List ℚ) (fp₁ fp₂ fp₃ : Fingerprint)
    (h1 : fp₁ ∈ generateFingerprint (defaultFGConfig .v1) logF sample peaks freqs times)
    (h2 : fp₂ ∈ generateFingerprint (defaultFGConfig .v2) logF sample peaks freqs times)
    (h3 : fp₃ ∈ generateFingerprint (defaultFGConfig .both) logF sample peaks freqs times) :
    (fp₁.hash < 2 ^ 32 ∧ fp₁.hash.testBit 31 = false) ∧
    (fp₂.hash < 2 ^ 32 ∧ fp₂.hash.testBit 31 = true) ∧
    (fp₃.hash < 2 ^ 32) := by
  obtain ⟨_, _, _, _, ab₁, tb₁, hab₁, hm₁⟩ := mem_generateFingerprint_emitPair h1
  obtain ⟨_, _, _, _, ab₂, tb₂, hab₂, hm₂⟩ := mem_generateFingerprint_emitPair h2
  obtain ⟨_, _, _, _, ab₃, tb₃, hab₃, hm₃⟩ := mem_generateFingerprint_emitPair h3
  norm_num [defaultFGConfig] at hab₁ hab₂ hab₃
  refine ⟨?_, ?_, ?_⟩
  · rcases mem_emitPair_hash hm₁ with ⟨-, x, y, hh⟩ | ⟨hne, -⟩
    · rw [hh]; exact generateHashV1_bound hab₁ x y
    · exact absurd rfl hne
  · rcases mem_emitPair_hash hm₂ with ⟨hne, -⟩ | ⟨-, x, y, hh⟩
    · exact absurd rfl hne
    · rw [hh]; exact generateHashV2_bound hab₂ x y
  · rcases mem_emitPair_hash hm₃ with ⟨-, x, y, hh⟩ | ⟨-, x, y, hh⟩
    · rw [hh]; exact (generateHashV1_bound hab₃ x y).1
    · rw [hh]; exact (generateHashV2_bound hab₃ x y).1

unseal Rat.add Rat.mul Rat.inv Rat.sub in
/-- Witness for C6: a concrete two-peak constellation emits hash `512` under
v1 (bit 31 clear) and hash `2147484160 = 2^31 + 512` under v2 (bit 31 set). -/
theorem generator_hashes_32bit_and_bit31_disjoint_witness :
    (512 < 2 ^ 32 ∧ Nat.testBit 512 31 = false) ∧
    (2147484160 < 2 ^ 32 ∧ Nat.testBit 2147484160 31 = true) ∧
    (512 < 2 ^ 32) :=
  generator_hashes_32bit_and_bit31_disjoint id (fun l k => l.take k)
    [(1, 0), (1, 1)] [0, 100] [0, 1/10] ⟨512, 0⟩ ⟨2147484160, 0⟩ ⟨512, 0⟩
    (by decide) (by decide) (by decide)

/-! ## Chunked ingest (`src/backend/main.py`, `process_audio_chunk` /
`fingerprint_song`) -/

/-- `librosa.fft_frequencies(sr=44100, n_fft=2048)`: bin `i` maps to
`i * 44100 / 2048` Hz by definition of the FFT bin spacing, for
`i < 2048/2 + 1 = 1025`. -/
def fftFreq (i : ℕ) : ℚ := ((i : ℚ) * 44100) / 2048

/-- The frequency axis list produced by `generate_spectrogram`. -/
def fftFreqsList : List ℚ := (List.range 1025).map fftFreq

/-- `librosa.times_like(S_db, sr=44100, hop_length=512)` for a signal of
`audioLen` samples: `librosa.stft` with `center=True` produces
`1 + audioLen // 512` frames, and frame `j` maps to `j * 512 / 44100`
seconds. -/
def timesLike (audioLen : ℕ) : List ℚ :=
  (List.range (1 + audioLen / 512)).map (fun (j : ℕ) => ((j : ℚ) * 512) / 44100)

/-- `process_audio_chunk`: chunk `i` covers samples
`[i*chunk_size*44100, min(len, (i+1)*chunk_size*44100))`; an empty slice
(start beyond the audio) yields no fingerprints; otherwise the per-chunk
spectrogram times are shifted by `i * chunk_size` seconds before fingerprint
generation.  The peak finder applied to the chunk is abstracted by
`peaksOf i` (the claim holds for any peak constellation). -/
def processAudioChunk (cfg : FGConfig) (logF : ℚ → ℚ)
    (sample : List ℕ → ℕ → List ℕ) (audioLen chunkIdx chunkSize : ℕ)
    (peaksOf : ℕ → List (ℕ × ℕ)) : List Fingerprint :=
  let start := chunkIdx * chunkSize * 44100
  let stop := min audioLen ((chunkIdx + 1) * chunkSize * 44100)
  if audioLen ≤ start then [] else
  let chunkLen := stop - start
  let adjusted := (timesLike chunkLen).map
    (fun t => t + ((chunkIdx * chunkSize : ℕ) : ℚ))
  generateFingerprint cfg logF sample (peaksOf chunkIdx) fftFreqsList adjusted

/-- The fingerprint list `fingerprint_song` accumulates: `num_chunks =
int(duration / chunk_size) + 1 = audioLen / (chunkSize * 44100) + 1` chunks
concatenated in order. -/
def fingerprintSongFPs (cfg : FGConfig) (logF : ℚ → ℚ)
    (sample : List ℕ → ℕ → List ℕ) (audioLen chunkSize : ℕ)
    (peaksOf : ℕ → List (ℕ × ℕ)) : List Fingerprint :=
  (List.range (audioLen / (chunkSize * 44100) + 1)).flatMap
    (fun i => processAudioChunk cfg logF sample audioLen i chunkSize peaksOf)

/-! ### Anchor-time bounds (claim C7) -/

lemma getD_mem_or_default (l : List α) (n : ℕ) (d : α) :
    l.getD n d ∈ l ∨ l.getD n d = d := by
  induction l generalizing n with
  | nil => simp
  | cons x xs ih =>
    cases n with
    | zero => simp
    | succ m =>
      rw [List.getD_cons_succ]
      rcases ih m with h | h
      · exact Or.inl (List.mem_cons_of_mem x h)
      · exact Or.inr h

lemma mem_emitPair_timeOffset {cfg : FGConfig} {ta af tt tf : ℚ} {ab tb : ℕ}
    {fp : Fingerprint} (h : fp ∈ emitPair cfg ta af ab tt tf tb) :
    fp.timeOffset = ta := by
  unfold emitPair at h
  rw [List.mem_append] at h
  rcases h with h | h <;> split at h <;> simp_all

lemma selectTargets_subset {cfg : FGConfig} {sample : List ℕ → ℕ → List ℕ}
    (hsample : ∀ l k, ∀ i ∈ sample l k, i ∈ l)
    {peakTimes : List ℚ} {anchorTime : ℚ} {targetIdx : List ℕ} :
    ∀ x ∈ selectTargets cfg sample peakTimes anchorTime targetIdx, x ∈ targetIdx := by
  intro x hx
  unfold selectTargets at hx
  split at hx
  · split at hx
    · exact hx
    · rw [List.mem_append] at hx
      rcases hx with hx | hx
      · exact ((List.perm_insertionSort _ targetIdx).mem_iff).1
          (List.mem_of_mem_take hx)
      · exact List.mem_of_mem_filter
          (hsample _ _ x hx :
            x ∈ remainingTargets cfg peakTimes anchorTime targetIdx)
  · exact hx

/-- Anchor-time bound for the generator: every emitted fingerprint carries
the time of some peak that has a strictly later target among the peak times,
so when all times are nonnegative and bounded by `B`, the emitted
`time_offset` lies in `[0, B)`. -/
lemma generateFingerprint_timeOffset_bounds {cfg : FGConfig} {logF : ℚ → ℚ}
    {sample : List ℕ → ℕ → List ℕ} {peaks : List (ℕ × ℕ)}
    {freqs times : List ℚ} {fp : Fingerprint} {B : ℚ}
    (hmin : 0 ≤ cfg.minTimeDelta)
    (hsample : ∀ l k, ∀ i ∈ sample l k, i ∈ l)
    (htimes : ∀ x ∈ times, 0 ≤ x ∧ x ≤ B)
    (h : fp ∈ generateFingerprint cfg logF sample peaks freqs times) :
    0 ≤ fp.timeOffset ∧ fp.timeOffset < B := by
  unfold generateFingerprint at h
  split at h
  · simp at h
  · rw [List.mem_flatMap] at h
    obtain ⟨a, -, ha⟩ := h
    simp only [anchorEmit] at ha
    split at ha
    · simp at ha
    · rw [List.mem_flatMap] at ha
      obtain ⟨t, htmem, ht⟩ := ha
      have htarget := selectTargets_subset hsample t htmem
      rw [anchorTargets, List.mem_filter] at htarget
      obtain ⟨-, hcond⟩ := htarget
      rw [decide_eq_true_eq] at hcond
      set peakTimes := peaks.map (fun p => times.getD p.2 0) with hpt
      have hptnn : ∀ x ∈ peakTimes, 0 ≤ x := by
        intro x hx
        rw [hpt, List.mem_map] at hx
        obtain ⟨p, -, rfl⟩ := hx
        rcases getD_mem_or_default times p.2 0 with hm | hd
        · exact (htimes _ hm).1
        · rw [hd]
      have hanchor_nn : 0 ≤ peakTimes.getD a 0 :=
        getD_prop hptnn le_rfl a
      have hofs := mem_emitPair_timeOffset ht
      have hlt : peakTimes.getD a 0 < peakTimes.getD t 0 := by
        have := hcond.1
        nlinarith [hmin]
      have htv_pos : 0 < peakTimes.getD t 0 := lt_of_le_of_lt hanchor_nn hlt
      have htv_le : peakTimes.getD t 0 ≤ B := by
        rcases getD_mem_or_default peakTimes t 0 with hm | hd
        · rw [hpt, List.mem_map] at hm
          obtain ⟨p, -, hp⟩ := hm
          rcases getD_mem_or_default times p.2 0 with hm2 | hd2
          · rw [← hp]; exact (htimes _ hm2).2
          · rw [← hp, hd2] at htv_pos; exact absurd htv_pos (by norm_num)
        · rw [hd] at htv_pos; exact absurd htv_pos (by norm_num)
      rw [hofs]
      exact ⟨hanchor_nn, lt_of_lt_of_le hlt htv_le⟩

/-- C7: every fingerprint emitted by the chunked ingest pipeline
(`fingerprint_song` → `process_audio_chunk`) has a `time_offset` that is
nonnegative and strictly below the clip duration `audioLen / 44100` seconds,
for any hash method, peak constellations and PRNG draw.
`chunk_time_bound` is the arithmetic core: frame `j` of chunk `i` stays below
the clip end. -/
lemma chunk_time_bound {audioLen i chunkSize j : ℕ}
    (hstart : i * chunkSize * 44100 < audioLen)
    (hj : j < 1 + (min audioLen ((i + 1) * chunkSize * 44100)
      - i * chunkSize * 44100) / 512) :
    (j : ℚ) * 512 / 44100 + ((i * chunkSize : ℕ) : ℚ) ≤ (audioLen : ℚ) / 44100 := by
  have h1 : j * 512 + i * chunkSize * 44100 ≤ audioLen := by
    have hj2 : j ≤ (min audioLen ((i + 1) * chunkSize * 44100)
        - i * chunkSize * 44100) / 512 := by omega
    have hjm : j * 512 ≤ min audioLen ((i + 1) * chunkSize * 44100)
        - i * chunkSize * 44100 :=
      le_trans (Nat.mul_le_mul_right _ hj2) (Nat.div_mul_le_self _ _)
    have hml := min_le_left audioLen ((i + 1) * chunkSize * 44100)
    omega
  have h2 : ((j * 512 + i * chunkSize * 44100 : ℕ) : ℚ) ≤ (audioLen : ℚ) := by
    exact_mod_cast h1
  push_cast at h2
  rw [div_add' _ _ _ (by norm_num : (44100 : ℚ) ≠ 0),
    div_le_div_iff_of_pos_right (by norm_num : (0 : ℚ) < 44100)]
  push_cast
  linarith

theorem chunked_ingest_time_offset_in_clip
    (m : HashMethod) (logF : ℚ → ℚ) (sample : List ℕ → ℕ → List ℕ)
    (audioLen chunkSize : ℕ) (peaksOf : ℕ → List (ℕ × ℕ)) (fp : Fingerprint)
    (hsample : ∀ l k, ∀ i ∈ sample l k, i ∈ l)
    (hfp : fp ∈ fingerprintSongFPs (defaultFGConfig m) logF sample
      audioLen chunkSize peaksOf) :
    0 ≤ fp.timeOffset ∧ fp.timeOffset < (audioLen : ℚ) / 44100 := by
  rw [fingerprintSongFPs, List.mem_flatMap] at hfp
  obtain ⟨i, -, hi⟩ := hfp
  rw [processAudioChunk] at hi
  split at hi
  · simp at hi
  · rename_i hstart
    push_neg at hstart
    refine generateFingerprint_timeOffset_bounds (by norm_num [defaultFGConfig])
      hsample ?_ hi
    intro x hx
    rw [List.mem_map] at hx
    obtain ⟨y, hy, rfl⟩ := hx
    rw [timesLike, List.mem_map] at hy
    obtain ⟨j, hj, rfl⟩ := hy
    rw [List.mem_range] at hj
    constructor
    · positivity
    · exact chunk_time_bound hstart hj

set_option maxRecDepth 4000 in
unseal Rat.add Rat.mul Rat.inv Rat.sub in
/-- Witness for C7: a half-second clip (22050 samples) with two peaks emits a
fingerprint at anchor time 0, inside `[0, 1/2)`. -/
theorem chunked_ingest_time_offset_in_clip_witness :
    0 ≤ (Fingerprint.mk 59 0).timeOffset ∧
      (Fingerprint.mk 59 0).timeOffset < ((22050 : ℕ) : ℚ) / 44100 :=
  chunked_ingest_time_offset_in_clip .v1 id (fun l k => l.take k) 22050 30
    (fun _ => [(1, 0), (1, 1)]) ⟨59, 0⟩
    (fun l k i hi => List.mem_of_mem_take hi) (by decide)

/-! ## Per-shard store (`src/backend/src/database/manager.py`) -/

/-- A row of the `songs` table: `(id, name, path)`. -/
structure SongRow where
  id : ℕ
  name : String
  path : String
deriving DecidableEq, Repr

/-- A match record (`Match` dataclass). -/
structure Match where
  songId : ℕ
  songName : String
  confidence : ℚ
  offset : ℚ
  matchCount : ℕ
deriving DecidableEq, Repr

/-- The persistent tables of one shard: `songs` and `fingerprints`
(`fingerprints(hash, song_id, time_offset)`), each in insertion order. -/
structure TableState where
  songs : List SongRow
  fps : List (ℕ × ℕ × ℚ)
deriving DecidableEq, Repr

/-- One SQL `INSERT` executed inside the `add_song` transaction. -/
inductive DbOp where
  | insertSong (id : ℕ) (name path : String)
  | insertFp (hash : ℕ) (songId : ℕ) (timeOffset : ℚ)
deriving DecidableEq, Repr

/-- Effect of a single successful insert on the tables. -/
def applyOp (st : TableState) : DbOp → TableState
  | .insertSong id name path => ⟨st.songs ++ [⟨id, name, path⟩], st.fps⟩
  | .insertFp h sid t => ⟨st.songs, st.fps ++ [(h, sid, t)]⟩

/-- Runs the inserts of a transaction in order against a working copy of the
tables.  `failFlags` is the failure oracle: flag `true` at position `k` means
the `k`-th insert raises (SQLite error, constraint violation, …); the
transaction then aborts with `none`.  Missing flags mean the insert
succeeds. -/
def execOps (st : TableState) : List DbOp → List Bool → Option TableState
  | [], _ => some st
  | op :: rest, [] => execOps (applyOp st op) rest []
  | op :: rest, b :: bs =>
    if b then none else execOps (applyOp st op) rest bs

/-- The in-memory handle state of `DatabaseManager`: the persisted tables
plus the `next_song_id` counter. -/
structure DBState where
  tables : TableState
  nextSongId : ℕ
deriving DecidableEq, Repr

/-- `add_song(song_name, song_path, fingerprints)`.  The song id is taken
from `next_song_id` (incremented before the transaction begins).  The
transaction inserts the song row and then every fingerprint row; `COMMIT`
makes the working state persistent, and on any error `ROLLBACK` restores the
tables exactly as they were (the incremented in-memory counter is not rolled
back) and the exception propagates. -/
def addSong (db : DBState) (songName songPath : String)
    (fingerprints : List Fingerprint) (failFlags : List Bool) :
    DBState × Except String ℕ :=
  let songId := db.nextSongId
  let ops := DbOp.insertSong songId songName songPath ::
    fingerprints.map (fun fp => DbOp.insertFp fp.hash songId fp.timeOffset)
  match execOps db.tables ops failFlags with
  | some st => (⟨st, songId + 1⟩, .ok songId)
  | none => (⟨db.tables, songId + 1⟩, .error ("Error adding song " ++ songName))

lemma execOps_eq_foldl {ops : List DbOp} {flags : List Bool} {st st2 : TableState}
    (h : execOps st ops flags = some st2) : st2 = ops.foldl applyOp st := by
  induction ops generalizing st flags with
  | nil => simpa [execOps] using h.symm
  | cons op rest ih =>
    cases flags with
    | nil => exact ih (by simpa [execOps] using h)
    | cons b bs =>
      rw [execOps] at h
      split at h
      · exact absurd h (by simp)
      · exact ih h

lemma foldl_insertFps (l : List Fingerprint) (sid : ℕ) (st : TableState) :
    (l.map (fun fp => DbOp.insertFp fp.hash sid fp.timeOffset)).foldl applyOp st =
      ⟨st.songs, st.fps ++ l.map (fun fp => (fp.hash, sid, fp.timeOffset))⟩ := by
  induction l generalizing st with
  | nil => simp
  | cons fp rest ih =>
    rw [List.map_cons, List.foldl_cons, ih]
    simp [applyOp]

/-- C3: `add_song` is atomic with respect to the shard's persistent tables.
For every starting state, song, fingerprint list and failure oracle, either
the call returns the assigned song id and the new tables are exactly the old
ones extended with the song row and all its fingerprint rows, or the call
raises and the tables are unchanged. -/
theorem add_song_atomic (db : DBState) (songName songPath : String)
    (fingerprints : List Fingerprint) (failFlags : List Bool) :
    ((addSong db songName songPath fingerprints failFlags).2 = .ok db.nextSongId ∧
      (addSong db songName songPath fingerprints failFlags).1.tables.songs =
        db.tables.songs ++ [⟨db.nextSongId, songName, songPath⟩] ∧
      (addSong db songName songPath fingerprints failFlags).1.tables.fps =
        db.tables.fps ++ fingerprints.map
          (fun fp => (fp.hash, db.nextSongId, fp.timeOffset))) ∨
    ((∃ e, (addSong db songName songPath fingerprints failFlags).2 = .error e) ∧
      (addSong db songName songPath fingerprints failFlags).1.tables = db.tables) := by
  unfold addSong
  dsimp only
  rcases hex : execOps db.tables
      (DbOp.insertSong db.nextSongId songName songPath ::
        fingerprints.map (fun fp => DbOp.insertFp fp.hash db.nextSongId fp.timeOffset))
      failFlags with _ | st
  · exact Or.inr ⟨⟨_, by rw [hex]⟩, by rw [hex]⟩
  · left
    have hfold := execOps_eq_foldl hex
    rw [List.foldl_cons] at hfold
    rw [foldl_insertFps] at hfold
    refine ⟨by rw [hex], ?_, ?_⟩ <;> rw [hex] <;> simp [hfold, applyOp]

/-! ### `find_matches` (claims C4 and C10) -/

/-- A row of the grouping query: `(song_id, time_delta, match_count)` from
`SELECT f.song_id, ROUND((f.time_offset - q.time_offset) * 10) / 10,
COUNT(*) ... GROUP BY ... ORDER BY match_count DESC LIMIT 100`. -/
structure JoinRow where
  songId : ℕ
  timeDelta : ℚ
  matchCount : ℕ
deriving DecidableEq, Repr

/-- Python dict assignment `d[key] = v`: overwrites in place (the key keeps
its original position), otherwise appends. -/
def dictInsert (key : ℕ × ℚ) (v : ℚ × ℕ) :
    List ((ℕ × ℚ) × (ℚ × ℕ)) → List ((ℕ × ℚ) × (ℚ × ℕ))
  | [] => [(key, v)]
  | (k2, v2) :: rest =>
    if k2 = key then (k2, v) :: rest else (k2, v2) :: dictInsert key v rest

/-- The `song_matches` dict built from the raw rows: for each row the
confidence is `match_count / len(fingerprints)` and only rows with
`confidence >= threshold` are kept, keyed by `(song_id, time_delta)`. -/
def buildSongMatches (queryCount : ℕ) (threshold : ℚ) (rows : List JoinRow) :
    List ((ℕ × ℚ) × (ℚ × ℕ)) :=
  rows.foldl (fun d r =>
    if threshold ≤ (r.matchCount : ℚ) / queryCount then
      dictInsert (r.songId, r.timeDelta) ((r.matchCount : ℚ) / queryCount, r.matchCount) d
    else d) []

/-- The `{row id: row name}` dict from
`SELECT id, name FROM songs WHERE id IN (...)`. -/
def songsLookup (songs : List (ℕ × String)) (id : ℕ) : Option String :=
  (songs.find? (fun s => s.1 == id)).map (fun s => s.2)

/-- The final compilation loop: iterate the dict entries sorted by confidence
descending (Python `sorted(..., reverse=True)`, stable) and emit a `Match`
for every entry whose song id resolved. -/
def compileMatches (songs : List (ℕ × String))
    (d : List ((ℕ × ℚ) × (ℚ × ℕ))) : List Match :=
  (sortDescBy (fun kv => kv.2.1) d).filterMap (fun kv =>
    (songsLookup songs kv.1.1).map (fun nm =>
      ⟨kv.1.1, nm, kv.2.1, kv.1.2, kv.2.2⟩))

/-- `find_matches(fingerprints, threshold)`.  The effectful steps inside the
`try` block are abstracted by oracles: `storage` is the result of the
temporary-table setup plus the grouping join (`.error` when any of those
statements raises), and `songsRes` the result of the song-name lookup query.
The enclosing `except Exception: return []` turns any raised error into the
empty list. -/
def findMatches (fingerprints : List Fingerprint)
    (storage : Except String (List JoinRow))
    (songsRes : Except String (List (ℕ × String))) (threshold : ℚ) : List Match :=
  if fingerprints.isEmpty then [] else
  match storage with
  | .error _ => []
  | .ok rows =>
    if rows.isEmpty then [] else
    if (buildSongMatches fingerprints.length threshold rows).isEmpty then [] else
    match songsRes with
    | .error _ => []
    | .ok songs =>
      compileMatches songs (buildSongMatches fingerprints.length threshold rows)

lemma mem_dictInsert {key : ℕ × ℚ} {v : ℚ × ℕ} {d : List ((ℕ × ℚ) × (ℚ × ℕ))}
    {kv : (ℕ × ℚ) × (ℚ × ℕ)} (h : kv ∈ dictInsert key v d) :
    kv.2 = v ∨ kv ∈ d := by
  induction d with
  | nil => simp [dictInsert] at h; simp [h]
  | cons x xs ih =>
    rw [dictInsert] at h
    split at h
    · rcases List.mem_cons.1 h with h | h
      · left; rw [h]
      · right; exact List.mem_cons_of_mem x h
    · rcases List.mem_cons.1 h with h | h
      · right; rw [h]; exact List.mem_cons_self x xs
      · rcases ih h with h2 | h2
        · exact Or.inl h2
        · exact Or.inr (List.mem_cons_of_mem x h2)

lemma buildSongMatches_invariant {queryCount : ℕ} {threshold : ℚ}
    {rows : List JoinRow} {kv : (ℕ × ℚ) × (ℚ × ℕ)}
    (h : kv ∈ buildSongMatches queryCount threshold rows) :
    kv.2.1 = (kv.2.2 : ℚ) / queryCount ∧ threshold ≤ kv.2.1 := by
  rw [buildSongMatches] at h
  suffices hgen : ∀ d : List ((ℕ × ℚ) × (ℚ × ℕ)),
      (∀ kv2 ∈ d, kv2.2.1 = (kv2.2.2 : ℚ) / queryCount ∧ threshold ≤ kv2.2.1) →
      kv ∈ rows.foldl (fun d r =>
        if threshold ≤ (r.matchCount : ℚ) / queryCount then
          dictInsert (r.songId, r.timeDelta)
            ((r.matchCount : ℚ) / queryCount, r.matchCount) d
        else d) d →
      kv.2.1 = (kv.2.2 : ℚ) / queryCount ∧ threshold ≤ kv.2.1 by
    exact hgen [] (by simp) h
  clear h
  induction rows with
  | nil => intro d hd h; exact hd kv h
  | cons r rest ih =>
    intro d hd h
    rw [List.foldl_cons] at h
    refine ih _ ?_ h
    split
    · intro kv2 hkv2
      rcases mem_dictInsert hkv2 with h2 | h2
      · rw [h2]
        exact ⟨rfl, by assumption⟩
      · exact hd kv2 h2
    · exact hd

/-- C4: every match returned by `find_matches` has
`confidence = match_count / |Q|` where `|Q|` is the number of query
fingerprints, and no returned match has confidence below the threshold. -/
theorem find_matches_confidence_and_threshold
    (fingerprints : List Fingerprint) (storage : Except String (List JoinRow))
    (songsRes : Except String (List (ℕ × String))) (threshold : ℚ)
    (m : Match) (hm : m ∈ findMatches fingerprints storage songsRes threshold) :
    m.confidence = (m.matchCount : ℚ) / fingerprints.length ∧
      threshold ≤ m.confidence := by
  unfold findMatches at hm
  split at hm
  · simp at hm
  rcases storage with e | rows
  · simp at hm
  dsimp only at hm
  split at hm
  · simp at hm
  split at hm
  · simp at hm
  rcases songsRes with e | songs
  · simp at hm
  dsimp only at hm
  rw [compileMatches, List.mem_filterMap] at hm
  obtain ⟨kv, hkv, hmap⟩ := hm
  have hkv2 : kv ∈ buildSongMatches fingerprints.length threshold rows := by
    have hperm := List.perm_insertionSort
      (fun a b : (ℕ × ℚ) × (ℚ × ℕ) => b.2.1 ≤ a.2.1)
      (buildSongMatches fingerprints.length threshold rows)
    exact hperm.mem_iff.1 hkv
  have hinv := buildSongMatches_invariant hkv2
  rcases hopt : songsLookup songs kv.1.1 with _ | nm
  · rw [hopt] at hmap; simp at hmap
  · rw [hopt, Option.map_some'] at hmap
    obtain rfl := Option.some.inj hmap
    exact hinv

unseal Rat.add Rat.mul Rat.inv Rat.sub in
/-- Witness for C4: a one-fingerprint query joining one row with one matching
song yields a single match of confidence `1 = 1 / 1`, above threshold
`1/2`. -/
theorem find_matches_confidence_and_threshold_witness :
    (Match.mk 7 "s" 1 0 1).confidence =
      ((Match.mk 7 "s" 1 0 1).matchCount : ℚ) /
        ([⟨1, 0⟩] : List Fingerprint).length ∧
      (1 / 2 : ℚ) ≤ (Match.mk 7 "s" 1 0 1).confidence :=
  find_matches_confidence_and_threshold [⟨1, 0⟩] (.ok [⟨7, 0, 1⟩])
    (.ok [(7, "s")]) (1 / 2) ⟨7, "s", 1, 0, 1⟩ (by decide)

/-- C10: `find_matches` never raises.  A failure of the temporary-table or
join machinery, and equally a failure of the song-name lookup, is swallowed
by the blanket `except` and yields the empty list, which is exactly what a
query with no fingerprints or an empty join result also returns — so a
storage error is indistinguishable from "no matches" at the return value. -/
theorem find_matches_error_yields_empty
    (fingerprints : List Fingerprint) (rows : List JoinRow)
    (songs : List (ℕ × String)) (threshold : ℚ) (e e2 : String) :
    findMatches fingerprints (.error e) (.ok songs) threshold = [] ∧
    findMatches fingerprints (.ok rows) (.error e2) threshold = [] ∧
    findMatches [] (.ok rows) (.ok songs) threshold = [] ∧
    findMatches fingerprints (.ok []) (.ok songs) threshold = [] := by
  refine ⟨?_, ?_, ?_, ?_⟩ <;> unfold findMatches
  · split <;> rfl
  · split
    · rfl
    · dsimp only
      split
      · rfl
      · split <;> rfl
  · rfl
  · split <;> rfl

/-! ## Shard selection on ingest (`src/backend/main.py`,
`find_suitable_database` / `get_db_path`, and
`DatabaseManager.get_database_stats`) -/

/-- The contents of one shard as far as statistics are concerned. -/
structure ShardData where
  numSongs : ℕ
  numFingerprints : ℕ
  numUniqueHashes : ℕ
deriving DecidableEq, Repr

/-- `get_database_stats`: the dictionary the manager returns.  Keys are
exactly the ones the code uses (`num_songs`, `num_fingerprints`,
`num_unique_hashes`, `avg_fingerprints_per_song`); the `database_size_mb`
entry (a file-system size) is modelled as 0. -/
def getDatabaseStats (sh : ShardData) : List (String × ℚ) :=
  [("num_songs", (sh.numSongs : ℚ)),
   ("num_fingerprints", (sh.numFingerprints : ℚ)),
   ("num_unique_hashes", (sh.numUniqueHashes : ℚ)),
   ("avg_fingerprints_per_song", (sh.numFingerprints : ℚ) / max 1 sh.numSongs),
   ("database_size_mb", 0)]

/-- Python `d.get(key, default)` on a string-keyed dict. -/
def dictGet (d : List (String × ℚ)) (key : String) (dflt : ℚ) : ℚ :=
  ((d.find? (fun kv => kv.1 == key)).map (fun kv => kv.2)).getD dflt

/-- `get_db_path(base_path, db_index)`.  A path is represented pre-split as
`(stem, extension)` the way `os.path.splitext` would split it; `none` selects
the configured default `data/database/fingerprints` (whose extension is
empty, so `.db` is used). -/
def getDbPath (base : Option (String × String)) (dbIndex : ℕ) : String :=
  match base with
  | none => "data/database/fingerprints" ++ "_" ++ toString dbIndex ++ ".db"
  | some (stem, ext) =>
    stem ++ "_" ++ toString dbIndex ++ (if ext = "" then ".db" else ext)

/-- The loop of `find_suitable_database` over the discovered shards (already
sorted lexicographically by `get_all_db_paths`).  The accumulator holds
`(db_to_use, min_songs)`, with `none` standing for the initial
`None` / `float("inf")` pair.  For each shard the code reads
`stats.get("songs", 0)` from the stats dict and keeps the shard iff
`song_count < min_songs and song_count < MAX_SONGS_PER_DATABASE`. -/
def selectionLoop (shards : List (String × ShardData)) :
    Option String × Option ℚ :=
  shards.foldl (fun best sh =>
    let songCount := dictGet (getDatabaseStats sh.2) "songs" 0
    if ((match best.2 with
        | none => true
        | some m => decide (songCount < m)) && decide (songCount < 25)) then
      (some sh.1, some songCount)
    else best) (none, none)

/-- `find_suitable_database`: with no discovered shard, create shard 1;
otherwise run the selection loop, and if it selected nothing or the minimum
is at least `MAX_SONGS_PER_DATABASE`, create shard `len(db_paths) + 1`. -/
def findSuitableDatabase (base : Option (String × String))
    (shards : List (String × ShardData)) : String :=
  if shards.isEmpty then getDbPath base 1 else
  match selectionLoop shards with
  | (some db, some minSongs) =>
    if 25 ≤ minSongs then getDbPath base (shards.length + 1) else db
  | _ => getDbPath base (shards.length + 1)

/-- Modelled from the spec: the shard-selection policy of §4.4 — among the
discovered shards (sorted lexicographically), choose the one with the fewest
songs among those whose song count is below `MAX_SONGS_PER_DATABASE` (25);
if none qualifies, create `<base>_<existing_count+1><ext>`.  This is the
policy the claim describes; the code above is what `main.py` executes. -/
def findSuitableDatabaseSpec (base : Option (String × String))
    (shards : List (String × ShardData)) : String :=
  let eligible := shards.filter (fun sh => sh.2.numSongs < 25)
  match eligible.foldl (fun best sh =>
      match best with
      | none => some sh
      | some b => if sh.2.numSongs < b.2.numSongs then some sh else some b)
      none with
  | some b => b.1
  | none => getDbPath base (shards.length + 1)

/-- C1 (code bug): `find_suitable_database` reads the song count with
`stats.get("songs", 0)`, but `get_database_stats` publishes the count under
the key `"num_songs"`; every shard therefore appears to hold 0 songs.  With
a single discovered shard holding exactly `MAX_SONGS_PER_DATABASE = 25`
songs, the code reuses that full shard, while the specified policy (and the
spec's boundary case) creates shard 2. -/
theorem find_suitable_database_full_shard_bug :
    dictGet (getDatabaseStats ⟨25, 1000, 800⟩) "num_songs" 0 = 25 ∧
    dictGet (getDatabaseStats ⟨25, 1000, 800⟩) "songs" 0 = 0 ∧
    findSuitableDatabase (some ("fingerprints", ".db"))
      [("fingerprints_1.db", ⟨25, 1000, 800⟩)] = "fingerprints_1.db" ∧
    findSuitableDatabaseSpec (some ("fingerprints", ".db"))
      [("fingerprints_1.db", ⟨25, 1000, 800⟩)] = "fingerprints_2.db" := by
  refine ⟨by decide, by decide, by decide, by decide⟩

/-! ## HTTP endpoint (`src/backend/api.py`, `POST /identify`) -/

/-- A Python exception as it flows through `identify_audio`: either a
`fastapi.HTTPException` (which subclasses `Exception`) or any other error. -/
inductive PyExc where
  | httpException (status : ℕ) (detail : String)
  | other (msg : String)
deriving DecidableEq, Repr

/-- Python `str(e)`: an `HTTPException` renders as `"<status>: <detail>"`. -/
def strOfExc : PyExc → String
  | .httpException status detail => toString status ++ ": " ++ detail
  | .other msg => msg

/-- The response the endpoint produces: a 200 body with the top match, or an
`HTTPException` with a status code and detail string. -/
inductive ApiResponse where
  | ok (topMatch : Match)
  | httpError (status : ℕ) (detail : String)
deriving DecidableEq, Repr

/-- Status code of a response (200 for the success body). -/
def ApiResponse.status : ApiResponse → ℕ
  | .ok _ => 200
  | .httpError s _ => s

/-- The `try` block of `identify_audio`: `outcome` abstracts the temp-file
handling and the `identify_song` call (`.error` when any of it raises,
`.ok` its return value — `None` or a list of matches).  When the result is
falsy the code raises `HTTPException(404, "No matches found.")`; otherwise it
answers with the maximum-confidence match. -/
def identifyAudioBody (outcome : Except String (Option (List Match))) :
    Except PyExc Match :=
  match outcome with
  | .error msg => .error (.other msg)
  | .ok none => .error (.httpException 404 "No matches found.")
  | .ok (some ms) =>
    match ms with
    | [] => .error (.httpException 404 "No matches found.")
    | m :: rest => .ok (maxByFirst (fun x => x.confidence) m rest)

/-- `identify_audio` as a whole: the `except Exception as e` clause catches
every exception raised in the `try` block — including the 404
`HTTPException` itself — and re-raises `HTTPException(500, str(e))`. -/
def identifyAudio (outcome : Except String (Option (List Match))) : ApiResponse :=
  match identifyAudioBody outcome with
  | .ok m => .ok m
  | .error e => .httpError 500 (strOfExc e)

/-- C2 (code bug): when the audio decodes but nothing matches
(`identify_song` returns `None` or an empty list), the endpoint answers 500,
not 404: the `raise HTTPException(404)` sits inside the `try` block and is
caught by the blanket `except Exception`, which re-raises it as
`HTTPException(500, "404: No matches found.")`.  A 500 is therefore produced
for the no-match case, contradicting both halves of the claim. -/
theorem identify_audio_no_match_returns_500 :
    identifyAudio (.ok none) = .httpError 500 "404: No matches found." ∧
    identifyAudio (.ok (some [])) = .httpError 500 "404: No matches found." ∧
    (identifyAudio (.ok none)).status ≠ 404 := by
  refine ⟨by decide, by decide, by decide⟩

/-! ## Cross-shard merge (`src/backend/main.py`, `identify_song`
lines 488–526) -/

/-- The result-processing tail of `identify_song`, given the per-shard
`find_matches` results in shard order (`pool.map` preserves the order of
`db_paths`, which `get_all_db_paths` sorts): accumulate the non-empty shard
results, return the single best match early when its confidence reaches
0.90, otherwise stable-sort by confidence descending and return the top 10;
`None` when nothing matched anywhere. -/
def identifySongMerge (shardResults : List (List Match)) : Option (List Match) :=
  match shardResults.foldl
      (fun acc ms => if ms.isEmpty then acc else acc ++ ms) [] with
  | [] => none
  | m :: rest =>
    let best := maxByFirst (fun x => x.confidence) m rest
    if (9 / 10 : ℚ) ≤ best.confidence then some [best]
    else some ((sortDescBy (fun x => x.confidence) (m :: rest)).take 10)

/-- The final ordering claimed by the spec: confidence descending, ties by
`song_id` ascending, then `offset` ascending. -/
def specMergeOrder (a b : Match) : Prop :=
  b.confidence < a.confidence ∨
    (b.confidence = a.confidence ∧
      (a.songId < b.songId ∨ (a.songId = b.songId ∧ a.offset ≤ b.offset)))

instance : DecidableRel specMergeOrder := fun a b => by
  unfold specMergeOrder; infer_instance

unseal Rat.add Rat.mul Rat.inv Rat.sub in
/-- Counterexample to C9: two shards each contribute one match with the same
confidence `1/2`; the code keeps them in shard order `song_id 5, song_id 3`
(its sort is stable and keyed on confidence only), which violates the
claimed `song_id`-ascending tie-break. -/
theorem identify_song_merge_tie_order_counterexample :
    identifySongMerge [[⟨5, "B", 1 / 2, 1, 10⟩], [⟨3, "A", 1 / 2, 0, 10⟩]] =
      some [⟨5, "B", 1 / 2, 1, 10⟩, ⟨3, "A", 1 / 2, 0, 10⟩] ∧
    ¬ List.Sorted specMergeOrder
      [⟨5, "B", 1 / 2, 1, 10⟩, ⟨3, "A", 1 / 2, 0, 10⟩] := by
  constructor
  · decide
  · intro h
    have := List.rel_of_sorted_cons h _ (List.mem_singleton.2 rfl)
    revert this
    decide

lemma maxByFirst_mem (key : α → ℚ) (a : α) (l : List α) :
    maxByFirst key a l = a ∨ maxByFirst key a l ∈ l := by
  unfold maxByFirst
  induction l generalizing a with
  | nil => simp
  | cons x xs ih =>
    rw [List.foldl_cons]
    rcases ih (if key a < key x then x else a) with h | h
    · rw [h]
      split
      · exact Or.inr (List.mem_cons_self x xs)
      · exact Or.inl rfl
    · exact Or.inr (List.mem_cons_of_mem x h)

lemma merge_accumulate_eq_join (shardResults : List (List Match)) :
    shardResults.foldl (fun acc ms => if ms.isEmpty then acc else acc ++ ms) [] =
      shardResults.join := by
  suffices hgen : ∀ acc, shardResults.foldl
      (fun acc ms => if ms.isEmpty then acc else acc ++ ms) acc =
      acc ++ shardResults.join by
    simpa using hgen []
  induction shardResults with
  | nil => intro acc; simp
  | cons ms rest ih =>
    intro acc
    rw [List.foldl_cons]
    split
    · rename_i he
      rw [List.isEmpty_iff] at he
      rw [ih, he]
      simp
    · rw [ih]
      simp [List.append_assoc]

/-- C9 (amended): the merge is deterministic (a function of the per-shard
results) and returns at most 10 matches drawn from the union of the shard
results, sorted by confidence descending — but ties are left in shard
traversal order (the sort is stable and keyed on confidence only), not
re-ordered by `song_id` or `offset`. -/
theorem identify_song_merge_sorted_by_confidence
    (shardResults : List (List Match)) (ms : List Match)
    (h : identifySongMerge shardResults = some ms) :
    List.Sorted (fun a b : Match => b.confidence ≤ a.confidence) ms ∧
      ms.length ≤ 10 ∧ ∀ m ∈ ms, m ∈ shardResults.join := by
  unfold identifySongMerge at h
  rw [merge_accumulate_eq_join] at h
  rcases hjoin : shardResults.join with _ | ⟨m, rest⟩ <;> rw [hjoin] at h
  · exact absurd h (by simp)
  · haveI : IsTotal Match (fun a b : Match => b.confidence ≤ a.confidence) :=
      ⟨fun a b => (le_total b.confidence a.confidence)⟩
    haveI : IsTrans Match (fun a b : Match => b.confidence ≤ a.confidence) :=
      ⟨fun a b c hab hbc => le_trans hbc hab⟩
    dsimp only at h
    split at h
    · obtain rfl := Option.some.inj h
      refine ⟨List.sorted_singleton _, by simp, ?_⟩
      intro x hx
      rw [List.mem_singleton] at hx
      rw [hx]
      rcases maxByFirst_mem (fun x : Match => x.confidence) m rest with h2 | h2
      · rw [h2]; exact List.mem_cons_self m rest
      · exact List.mem_cons_of_mem m h2
    · obtain rfl := Option.some.inj h
      refine ⟨?_, le_trans (List.length_take_le 10 _) le_rfl, ?_⟩
      · exact (List.sorted_insertionSort _ (m :: rest)).sublist
          (List.take_sublist 10 _)
      · intro x hx
        have hx2 := List.mem_of_mem_take hx
        rw [sortDescBy] at hx2
        exact (List.perm_insertionSort
          (fun a b : Match => b.confidence ≤ a.confidence) (m :: rest)).mem_iff.1 hx2

unseal Rat.add Rat.mul Rat.inv Rat.sub in
/-- Witness for the amended C9: the counterexample input produces
`[song 5, song 3]`, which is confidence-sorted, short enough, and drawn from
the shard results. -/
theorem identify_song_merge_sorted_by_confidence_witness :
    List.Sorted (fun a b : Match => b.confidence ≤ a.confidence)
      [⟨5, "B", 1 / 2, 1, 10⟩, ⟨3, "A", 1 / 2, 0, 10⟩] ∧
    ([⟨5, "B", 1 / 2, 1, 10⟩, ⟨3, "A", 1 / 2, 0, 10⟩] : List Match).length ≤ 10 ∧
    ∀ m ∈ ([⟨5, "B", 1 / 2, 1, 10⟩, ⟨3, "A", 1 / 2, 0, 10⟩] : List Match),
      m ∈ ([[⟨5, "B", 1 / 2, 1, 10⟩], [⟨3, "A", 1 / 2, 0, 10⟩]] :
        List (List Match)).join :=
  identify_song_merge_sorted_by_confidence
    [[⟨5, "B", 1 / 2, 1, 10⟩], [⟨3, "A", 1 / 2, 0, 10⟩]]
    [⟨5, "B", 1 / 2, 1, 10⟩, ⟨3, "A", 1 / 2, 0, 10⟩] (by decide)

/-! ## Peak finder (`src/backend/src/fingerprinting/peaks.py`) -/

/-- Peak-finder configuration (`PeakFinder.__init__` fields used by
`find_peaks`). -/
structure PFConfig where
  neighborhood : ℕ
  thresholdAbs : ℚ
  maxPeaksPerFrame : ℕ
  maxPeaksTotal : ℕ
  minFrequency : ℚ
  maxFrequency : ℚ
  freqBins : ℕ
deriving Repr

/-- The configuration `create_peak_finder` builds from `config.py`. -/
def defaultPFConfig : PFConfig :=
  ⟨5, -22, 7, 5000, 20, 5000, 16⟩

/-- Spectrogram cell lookup `S[f, t]` on a rectangular dB matrix stored as a
list of frequency rows. -/
def Sget (S : List (List ℚ)) (f t : ℕ) : ℚ := (S.getD f []).getD t 0

/-- Number of time frames of the matrix (all rows have equal length). -/
def numCols (S : List (List ℚ)) : ℕ := (S.getD 0 []).length

/-- Maximum of `S` over the in-bounds diamond `|Δf| + |Δt| ≤ r` around
`(f, t)`: the footprint `iterate_structure(generate_binary_structure(2, 1),
r)` is the Manhattan ball of radius `r`, and `scipy.ndimage.maximum_filter`
in its default reflect mode takes the window maximum, where every reflected
coordinate folds back onto an in-bounds cell of the same diamond. -/
def neighborhoodMax (S : List (List ℚ)) (r f t : ℕ) : ℚ :=
  (((List.range S.length).flatMap (fun (f2 : ℕ) =>
    (List.range (numCols S)).filterMap (fun (t2 : ℕ) =>
      if ((f : ℤ) - (f2 : ℤ)).natAbs + ((t : ℤ) - (t2 : ℤ)).natAbs ≤ r then
        some (Sget S f2 t2)
      else none))).foldl max (Sget S f t))

/-- `local_max & (spectrogram > threshold_abs)` for one cell. -/
def isPeakCell (S : List (List ℚ)) (r : ℕ) (thr : ℚ) (f t : ℕ) : Bool :=
  decide (Sget S f t = neighborhoodMax S r f t) && decide (thr < Sget S f t)

/-- `np.where(is_peak)` followed by `np.column_stack`: the peak coordinates
in row-major order. -/
def findPeakCandidates (S : List (List ℚ)) (r : ℕ) (thr : ℚ) : List (ℕ × ℕ) :=
  (List.range S.length).flatMap (fun f =>
    (List.range (numCols S)).filterMap (fun t =>
      if isPeakCell S r thr f t then some (f, t) else none))

/-- `np.searchsorted(xs, v)` (left side) for an ascending `xs`: the number
of elements strictly below `v`. -/
def searchsortedLeft (xs : List ℚ) (v : ℚ) : ℕ :=
  xs.countP (fun x => decide (x < v))

/-- `np.searchsorted(xs, v, side="right")` for an ascending `xs`: the number
of elements at most `v`. -/
def searchsortedRight (xs : List ℚ) (v : ℚ) : ℕ :=
  xs.countP (fun x => decide (x ≤ v))

/-- `peaks[np.argsort(amplitudes)[::-1][:k]]`: the `k` highest-amplitude
peaks of `l`, highest first (numpy argsort is stable ascending, then
reversed). -/
def selectTopByAmp (ampOf : ℕ × ℕ → ℚ) (k : ℕ) (l : List (ℕ × ℕ)) :
    List (ℕ × ℕ) :=
  ((argsortDesc (l.map ampOf)).take k).map (fun i => l.getD i (0, 0))

/-- `_apply_freq_binning`: the log-spaced bin edges are floating-point
values of `np.logspace`, abstracted by `binRawOf`, which maps a peak's
frequency index to `np.digitize(freq, freq_bin_edges) - 1`; the code then
clips the bin into `[0, freq_bins - 1]`, keeps the top
`max(5, max_peaks_total // freq_bins)` peaks of each non-empty bin by
amplitude, and concatenates the bins in order (returning the input when
every bin is empty). -/
def applyFreqBinning (binRawOf : ℕ → ℤ) (freqBins maxTotal : ℕ)
    (ampOf : ℕ × ℕ → ℚ) (peaks : List (ℕ × ℕ)) : List (ℕ × ℕ) :=
  let binned := (List.range freqBins).filterMap (fun b =>
    let binPeaks := peaks.filter (fun p =>
      (clipZ (binRawOf p.1) 0 ((freqBins : ℤ) - 1)).toNat == b)
    if binPeaks.isEmpty then none
    else some (selectTopByAmp ampOf (max 5 (maxTotal / freqBins)) binPeaks))
  if binned.isEmpty then peaks else binned.flatten

/-- `np.unique` of the time coordinates: sorted ascending, duplicates
removed. -/
def uniqueSorted (l : List ℕ) : List ℕ :=
  (l.insertionSort (fun a b => a ≤ b)).dedup

/-- `_limit_peaks_per_frame`: group the peaks by time frame (frames in
ascending order), keep each frame unchanged when it holds at most
`max_peaks_per_frame` peaks and its top `max_peaks_per_frame` by amplitude
otherwise, and concatenate. -/
def limitPeaksPerFrame (maxPerFrame : ℕ) (ampOf : ℕ × ℕ → ℚ)
    (peaks : List (ℕ × ℕ)) : List (ℕ × ℕ) :=
  if peaks.isEmpty || maxPerFrame == 0 then peaks else
  let blocks := (uniqueSorted (peaks.map (fun p => p.2))).map (fun t =>
    let framePeaks := peaks.filter (fun p => p.2 == t)
    if framePeaks.length ≤ maxPerFrame then framePeaks
    else selectTopByAmp ampOf maxPerFrame framePeaks)
  if blocks.isEmpty then [] else blocks.flatten

/-- `find_peaks(spectrogram, freqs)`: local-maximum candidates, frequency
band clipping by `searchsorted` indices, log-frequency bucket decimation,
per-frame cap, global cap. -/
def findPeaks (S : List (List ℚ)) (freqs : List ℚ) (binRawOf : ℕ → ℤ)
    (cfg : PFConfig) : List (ℕ × ℕ) :=
  let candidates := findPeakCandidates S cfg.neighborhood cfg.thresholdAbs
  if candidates.isEmpty then [] else
  let minIdx := searchsortedLeft freqs cfg.minFrequency
  let maxIdx := searchsortedRight freqs cfg.maxFrequency
  let filtered := candidates.filter (fun p =>
    decide (minIdx ≤ p.1) && decide (p.1 < maxIdx))
  if filtered.isEmpty then [] else
  let ampOf := fun p : ℕ × ℕ => Sget S p.1 p.2
  let limited := limitPeaksPerFrame cfg.maxPeaksPerFrame ampOf
    (applyFreqBinning binRawOf cfg.freqBins cfg.maxPeaksTotal ampOf filtered)
  limited.take cfg.maxPeaksTotal

/-! ### Peak-set bounds (claim C5) -/

lemma getD_mem_of_lt {l : List α} {i : ℕ} {d : α} (h : i < l.length) :
    l.getD i d ∈ l := by
  induction l generalizing i with
  | nil => simp at h
  | cons x xs ih =>
    cases i with
    | zero => simp
    | succ m =>
      rw [List.getD_cons_succ]
      exact List.mem_cons_of_mem x (ih (by simpa using h))

lemma mem_argsortDesc_lt {vals : List ℚ} {i : ℕ} (h : i ∈ argsortDesc vals) :
    i < vals.length := by
  rw [argsortDesc, List.mem_reverse, argsortAsc] at h
  have := (List.perm_insertionSort _ (List.range vals.length)).mem_iff.1 h
  exact List.mem_range.1 this

lemma selectTopByAmp_subset {ampOf : ℕ × ℕ → ℚ} {k : ℕ} {l : List (ℕ × ℕ)}
    {x : ℕ × ℕ} (h : x ∈ selectTopByAmp ampOf k l) : x ∈ l := by
  rw [selectTopByAmp, List.mem_map] at h
  obtain ⟨i, hi, rfl⟩ := h
  have hlt : i < l.length := by
    have := mem_argsortDesc_lt (List.mem_of_mem_take hi)
    simpa using this
  exact getD_mem_of_lt hlt

lemma selectTopByAmp_length_le (ampOf : ℕ × ℕ → ℚ) (k : ℕ) (l : List (ℕ × ℕ)) :
    (selectTopByAmp ampOf k l).length ≤ k := by
  rw [selectTopByAmp, List.length_map]
  exact List.length_take_le k _

lemma applyFreqBinning_subset {binRawOf : ℕ → ℤ} {freqBins maxTotal : ℕ}
    {ampOf : ℕ × ℕ → ℚ} {peaks : List (ℕ × ℕ)} {x : ℕ × ℕ}
    (h : x ∈ applyFreqBinning binRawOf freqBins maxTotal ampOf peaks) :
    x ∈ peaks := by
  rw [applyFreqBinning] at h
  dsimp only at h
  split at h
  · exact h
  · rw [List.mem_flatten] at h
    obtain ⟨blk, hblk, hx⟩ := h
    rw [List.mem_filterMap] at hblk
    obtain ⟨b, -, hsome⟩ := hblk
    split at hsome
    · exact absurd hsome (by simp)
    · obtain rfl := Option.some.inj hsome
      exact List.mem_of_mem_filter (selectTopByAmp_subset hx)

lemma limitPeaksPerFrame_subset {maxPerFrame : ℕ} {ampOf : ℕ × ℕ → ℚ}
    {peaks : List (ℕ × ℕ)} {x : ℕ × ℕ}
    (h : x ∈ limitPeaksPerFrame maxPerFrame ampOf peaks) : x ∈ peaks := by
  rw [limitPeaksPerFrame] at h
  dsimp only at h
  split at h
  · exact h
  · split at h
    · simp at h
    · rw [List.mem_flatten] at h
      obtain ⟨blk, hblk, hx⟩ := h
      rw [List.mem_map] at hblk
      obtain ⟨t, -, rfl⟩ := hblk
      split at hx
      · exact List.mem_of_mem_filter hx
      · exact List.mem_of_mem_filter (selectTopByAmp_subset hx)

lemma countP_flatten_le {frames : List ℕ} {blk : ℕ → List (ℕ × ℕ)} {m : ℕ}
    (t0 : ℕ) (hnd : frames.Nodup)
    (hmem : ∀ t ∈ frames, ∀ p ∈ blk t, p.2 = t)
    (hlen : ∀ t ∈ frames, (blk t).length ≤ m) :
    ((frames.map blk).flatten.countP (fun p => p.2 == t0)) ≤ m := by
  induction frames with
  | nil => simp
  | cons t ts ih =>
    rw [List.map_cons, List.flatten_cons, List.countP_append]
    have hndtail := (List.nodup_cons.1 hnd).2
    have hnotin := (List.nodup_cons.1 hnd).1
    rcases eq_or_ne t t0 with rfl | hne
    · have hrest : ((ts.map blk).flatten.countP (fun p => p.2 == t)) = 0 := by
        rw [List.countP_eq_zero]
        intro p hp
        rw [List.mem_flatten] at hp
        obtain ⟨l2, hl2, hpl⟩ := hp
        rw [List.mem_map] at hl2
        obtain ⟨t2, ht2, rfl⟩ := hl2
        have hpt2 := hmem t2 (List.mem_cons_of_mem _ ht2) p hpl
        simp only [beq_iff_eq]
        intro hcon
        have ht2t : t2 = t := by rw [← hpt2, hcon]
        exact hnotin (ht2t ▸ ht2)
      have hhead : (blk t).countP (fun p => p.2 == t) ≤ m :=
        le_trans (List.countP_le_length _) (hlen t (List.mem_cons_self _ _))
      omega
    · have hhead : (blk t).countP (fun p => p.2 == t0) = 0 := by
        rw [List.countP_eq_zero]
        intro p hp
        have := hmem t (List.mem_cons_self _ _) p hp
        simp only [beq_iff_eq]
        rw [this]
        exact hne
      have htail := ih hndtail
        (fun t2 ht2 => hmem t2 (List.mem_cons_of_mem _ ht2))
        (fun t2 ht2 => hlen t2 (List.mem_cons_of_mem _ ht2))
      omega

lemma limitPeaksPerFrame_countP (maxPerFrame : ℕ) (hm : maxPerFrame ≠ 0)
    (ampOf : ℕ × ℕ → ℚ) (peaks : List (ℕ × ℕ)) (t0 : ℕ) :
    ((limitPeaksPerFrame maxPerFrame ampOf peaks).countP
      (fun p => p.2 == t0)) ≤ maxPerFrame := by
  rw [limitPeaksPerFrame]
  dsimp only
  split
  · rename_i hcond
    rw [Bool.or_eq_true] at hcond
    rcases hcond with hcond | hcond
    · rw [List.isEmpty_iff] at hcond
      rw [hcond]
      simp
    · exact absurd (by simpa using hcond) hm
  · split
    · simp
    · refine countP_flatten_le t0 (List.nodup_dedup _) ?_ ?_
      · intro t ht p hp
        split at hp
        · exact beq_iff_eq.1 (List.mem_filter.1 hp).2
        · exact beq_iff_eq.1
            (List.mem_filter.1 (selectTopByAmp_subset hp)).2
      · intro t ht
        split
        · assumption
        · exact selectTopByAmp_length_le _ _ _

set_option maxRecDepth 40000 in
unseal Rat.add Rat.mul Rat.inv Rat.sub in
lemma fftFreqs_searchsorted_left : searchsortedLeft fftFreqsList 20 = 1 := by
  decide

set_option maxRecDepth 40000 in
unseal Rat.add Rat.mul Rat.inv Rat.sub in
lemma fftFreqs_searchsorted_right : searchsortedRight fftFreqsList 5000 = 233 := by
  decide

lemma fftFreq_lower {i : ℕ} (h : 1 ≤ i) : 20 ≤ fftFreq i := by
  rw [fftFreq, le_div_iff (by norm_num : (0 : ℚ) < 2048)]
  have hi : (1 : ℚ) ≤ (i : ℚ) := by exact_mod_cast h
  nlinarith

lemma fftFreq_upper {i : ℕ} (h : i < 233) : fftFreq i < 5000 := by
  rw [fftFreq, div_lt_iff (by norm_num : (0 : ℚ) < 2048)]
  have hi : (i : ℚ) ≤ 232 := by exact_mod_cast Nat.lt_succ_iff.1 h
  nlinarith

/-- C5: for every spectrogram and every digitize oracle, the default-config
peak extraction returns at most `MAX_PEAKS_TOTAL = 5000` peaks, at most
`MAX_PEAKS_PER_FRAME = 7` peaks in any single time frame, and every returned
peak's frequency `freqs[f_idx]` satisfies `MIN_FREQ ≤ freq < MAX_FREQ`
(20 Hz inclusive, 5000 Hz exclusive). -/
theorem find_peaks_caps_and_band (S : List (List ℚ)) (binRawOf : ℕ → ℤ)
    (p : ℕ × ℕ) (t0 : ℕ)
    (hp : p ∈ findPeaks S fftFreqsList binRawOf defaultPFConfig) :
    (findPeaks S fftFreqsList binRawOf defaultPFConfig).length ≤ 5000 ∧
    ((findPeaks S fftFreqsList binRawOf defaultPFConfig).countP
      (fun q => q.2 == t0)) ≤ 7 ∧
    20 ≤ fftFreq p.1 ∧ fftFreq p.1 < 5000 := by
  refine ⟨?_, ?_, ?_⟩
  · rw [findPeaks]
    dsimp only
    split
    · simp
    · split
      · simp
      · exact le_trans (List.length_take_le _ _) le_rfl
  · rw [findPeaks]
    dsimp only
    split
    · simp
    · split
      · simp
      · refine le_trans (List.Sublist.countP_le _ (List.take_sublist _ _)) ?_
        exact limitPeaksPerFrame_countP 7 (by norm_num) _ _ t0
  · rw [findPeaks] at hp
    dsimp only at hp
    split at hp
    · simp at hp
    · split at hp
      · simp at hp
      · have hlim := List.mem_of_mem_take hp
        have hbin := limitPeaksPerFrame_subset hlim
        have hfil := applyFreqBinning_subset hbin
        have hcond := (List.mem_filter.1 hfil).2
        rw [Bool.and_eq_true, decide_eq_true_eq, decide_eq_true_eq] at hcond
        dsimp only [defaultPFConfig] at hcond
        rw [fftFreqs_searchsorted_left, fftFreqs_searchsorted_right] at hcond
        exact ⟨fftFreq_lower hcond.1, fftFreq_upper hcond.2⟩

set_option maxRecDepth 100000 in
unseal Rat.add Rat.mul Rat.inv Rat.sub in
/-- Witness for C5: the 2×1 spectrogram `[[-30], [0]]` yields the single
peak `(1, 0)`, within all three bounds. -/
theorem find_peaks_caps_and_band_witness :
    (findPeaks [[-30], [0]] fftFreqsList (fun _ => 0) defaultPFConfig).length ≤ 5000 ∧
    ((findPeaks [[-30], [0]] fftFreqsList (fun _ => 0) defaultPFConfig).countP
      (fun q => q.2 == 0)) ≤ 7 ∧
    20 ≤ fftFreq (1, 0).1 ∧ fftFreq (1, 0).1 < 5000 :=
  find_peaks_caps_and_band [[-30], [0]] (fun _ => 0) (1, 0) 0 (by decide)

/-! ## Real-valued semantics of `_freq_to_bin` (claim C8)

The claim is about the mathematical value the code computes, so here the
floating-point `np.log` is modelled by `Real.log` (the computable embedding
`freqToBin` above keeps the logarithm as a parameter instead). -/

/-- numpy `np.clip` over ℝ. -/
noncomputable def clipR (x lo hi : ℝ) : ℝ := min (max x lo) hi

/-- numpy `astype(int)` over ℝ: truncation toward zero. -/
noncomputable def truncR (x : ℝ) : ℤ := if 0 ≤ x then ⌊x⌋ else ⌈x⌉

/-- The scaled log-position of a frequency before integer conversion:
`(ln(clip(f, 20, 20000)) - ln 20) / (ln 20000 - ln 20) * (num_bins - 1)`. -/
noncomputable def scaledLogPos (numBins : ℕ) (f : ℝ) : ℝ :=
  (Real.log (clipR f 20 20000) - Real.log 20) /
    (Real.log 20000 - Real.log 20) * ((numBins : ℝ) - 1)

/-- `_freq_to_bin` over ℝ: the scaled log-position is truncated toward zero
(`astype(int)`) and the result clipped into `[0, num_bins - 1]`. -/
noncomputable def freqToBinReal (numBins : ℕ) (f : ℝ) : ℤ :=
  clipZ (truncR (scaledLogPos numBins f)) 0 ((numBins : ℤ) - 1)

/-- The claim's formula: the same scaled log-position rounded to the nearest
integer before clipping. -/
noncomputable def freqToBinRoundSpec (numBins : ℕ) (f : ℝ) : ℤ :=
  clipZ (round (scaledLogPos numBins f)) 0 ((numBins : ℤ) - 1)

lemma sqrt_thousand_bounds : 1 ≤ Real.sqrt 1000 ∧ Real.sqrt 1000 ≤ 1000 := by
  constructor
  · rw [show (1 : ℝ) = Real.sqrt 1 by rw [Real.sqrt_one]]
    exact Real.sqrt_le_sqrt (by norm_num)
  · exact (Real.sqrt_le_left (by norm_num)).2 (by norm_num)

lemma scaledLogPos_at_20_sqrt1000 :
    scaledLogPos 32 (20 * Real.sqrt 1000) = 31 / 2 := by
  have hs := sqrt_thousand_bounds
  have hsqrt_pos : 0 < Real.sqrt 1000 := lt_of_lt_of_le one_pos hs.1
  have hclip : clipR (20 * Real.sqrt 1000) 20 20000 = 20 * Real.sqrt 1000 := by
    rw [clipR, max_eq_left (by nlinarith), min_eq_left (by nlinarith)]
  have hlogf : Real.log (20 * Real.sqrt 1000) =
      Real.log 20 + Real.log 1000 / 2 := by
    rw [Real.log_mul (by norm_num) (ne_of_gt hsqrt_pos),
      Real.log_sqrt (by norm_num)]
  have hlog20000 : Real.log 20000 = Real.log 20 + Real.log 1000 := by
    rw [show (20000 : ℝ) = 20 * 1000 by norm_num,
      Real.log_mul (by norm_num) (by norm_num)]
  have hlog1000_pos : 0 < Real.log 1000 := Real.log_pos (by norm_num)
  rw [scaledLogPos, hclip, hlogf, hlog20000]
  field_simp
  ring

/-- Counterexample to C8: at the frequency `20·√1000 ≈ 632.5 Hz` the scaled
log-position is exactly `15.5`; the code (`astype(int)`, truncation toward
zero) produces bin 15 while the claimed formula (round to nearest) produces
bin 16. -/
theorem freq_to_bin_round_counterexample :
    freqToBinReal 32 (20 * Real.sqrt 1000) = 15 ∧
    freqToBinRoundSpec 32 (20 * Real.sqrt 1000) = 16 := by
  have hpos := scaledLogPos_at_20_sqrt1000
  constructor
  · rw [freqToBinReal, hpos, truncR, if_pos (by norm_num : (0 : ℝ) ≤ 31 / 2)]
    have hfloor : ⌊(31 / 2 : ℝ)⌋ = 15 := by
      rw [Int.floor_eq_iff]
      norm_num
    rw [hfloor]
    decide
  · rw [freqToBinRoundSpec, hpos]
    have hround : round ((31 / 2 : ℝ)) = 16 := by
      rw [round_eq, show (31 / 2 : ℝ) + 1 / 2 = ((16 : ℤ) : ℝ) by norm_num,
        Int.floor_intCast]
    rw [hround]
    decide

/-- C8 (amended): the log-frequency bin the code computes equals the claimed
formula with the rounding operation replaced by truncation toward zero
(`astype(int)`): `clip(trunc((ln(clip(f,20,20000)) - ln 20) /
(ln 20000 - ln 20) · (freq_bin_count - 1)), 0, freq_bin_count - 1)`. -/
theorem freq_to_bin_is_clipped_truncation (f : ℝ) :
    freqToBinReal 32 f =
      min (max (truncR ((Real.log (min (max f 20) 20000) - Real.log 20) /
        (Real.log 20000 - Real.log 20) * (32 - 1))) 0) 31 := by
  rw [freqToBinReal, scaledLogPos, clipZ, clipR]
  norm_num

end Shazam
